import Mathlib

/-!
Verification development for the ecg_digitizer image-to-signal pipeline.

The Python sources are embedded shallowly: a raster image is a structure
carrying its dimensions and a pixel function, numpy/OpenCV array operations
become explicit folds and filters over coordinate ranges, and the one
fallible library call (the sklearn DBSCAN fit inside cluster_lead_positions)
is modelled in the Except monad.
-/

namespace Ecg

/-- A single-channel raster image: height, width, and intensity per (row, column).
Pixels outside the rectangle are irrelevant; every embedded operation reads
only in-range coordinates. -/
structure Image where
  height : Nat
  width : Nat
  pix : Nat → Nat → Nat

/-! ## grid_removal.py: remove_isolated_pixels -/

/-- Neighbor offsets of grid_removal.remove_isolated_pixels: the 8-connected
window for connectivity = 8, the 4-connected one for every other value
(mirroring the if/else of the source). -/
def neighborOffsets (connectivity : Nat) : List (Int × Int) :=
  if connectivity = 8 then
    [(-1, -1), (-1, 0), (-1, 1), (0, -1), (0, 1), (1, -1), (1, 0), (1, 1)]
  else
    [(-1, 0), (0, -1), (0, 1), (1, 0)]

/-- One neighbor test of remove_isolated_pixels: the offset position is inside
the image and holds value 255. -/
def isWhiteNeighbor (img : Image) (y x : Nat) (d : Int × Int) : Bool :=
  decide (0 ≤ (y : Int) + d.1 ∧ (y : Int) + d.1 < (img.height : Int) ∧
    0 ≤ (x : Int) + d.2 ∧ (x : Int) + d.2 < (img.width : Int) ∧
    img.pix ((y : Int) + d.1).toNat ((x : Int) + d.2).toNat = 255)

/-- Count of white neighbors of pixel (y, x), as in the inner loop of
remove_isolated_pixels. -/
def countWhiteNeighbors (img : Image) (connectivity : Nat) (y x : Nat) : Nat :=
  (neighborOffsets connectivity).countP (isWhiteNeighbor img y x)

/-- grid_removal.remove_isolated_pixels: every in-range pixel of value 255
whose white-neighbor count (measured on the input image, not the partially
cleaned one) is below min_connections is zeroed; all other pixels are copied. -/
def removeIsolatedPixels (img : Image) (connectivity minConnections : Nat) : Image :=
  { img with
    pix := fun y x =>
      if y < img.height ∧ x < img.width ∧ img.pix y x = 255 ∧
          countWhiteNeighbors img connectivity y x < minConnections
      then 0 else img.pix y x }

/-! ## text_removal.py -/

/-- text_removal.create_margin_mask with the default fractions: 255 on the
left band of width ⌊0.1·w⌋ and on the bottom band of height ⌊0.05·h⌋
(int(width * 0.1) = ⌊w/10⌋ and int(height * 0.05) = ⌊h/20⌋ exactly for
realistic dimensions), 0 elsewhere. -/
def createMarginMask (height width : Nat) : Nat → Nat → Nat :=
  fun y x => if x < width / 10 ∨ height - height / 20 ≤ y then 255 else 0

/-- The 3×3 structuring-element window used by cv2.dilate with a ones kernel. -/
def offsets3x3 : List (Int × Int) :=
  [(-1, -1), (-1, 0), (-1, 1), (0, -1), (0, 0), (0, 1), (1, -1), (1, 0), (1, 1)]

/-- cv2.dilate with a 3×3 ones kernel, one iteration: each output pixel is the
maximum of the input over the in-range part of its 3×3 window (morphological
dilation ignores out-of-range positions). -/
def dilate3x3 (mask : Nat → Nat → Nat) (height width : Nat) : Nat → Nat → Nat :=
  fun y x =>
    offsets3x3.foldl
      (fun acc d =>
        if 0 ≤ (y : Int) + d.1 ∧ (y : Int) + d.1 < (height : Int) ∧
            0 ≤ (x : Int) + d.2 ∧ (x : Int) + d.2 < (width : Int)
        then max acc (mask ((y : Int) + d.1).toNat ((x : Int) + d.2).toNat)
        else acc)
      0

/-- cv2.bitwise_or of two masks, pointwise. -/
def bitwiseOrMask (m1 m2 : Nat → Nat → Nat) : Nat → Nat → Nat :=
  fun y x => m1 y x ||| m2 y x

/-- text_removal.create_text_mask. The connected-component detector
(find_text_by_connected_components, whose statistics come from OpenCV) runs
inside a try/except; it is modelled here by its outcome: Except.ok with the
component mask it produced, or Except.error with the message of the exception
it raised. On error the source logs a warning and keeps the margin mask
alone; either way the combined mask is dilated once with a 3×3 kernel. -/
def createTextMask (height width : Nat)
    (ccResult : Except String (Nat → Nat → Nat)) : Nat → Nat → Nat :=
  let base := createMarginMask height width
  let combined :=
    match ccResult with
    | Except.ok ccMask => bitwiseOrMask base ccMask
    | Except.error _ => base
  dilate3x3 combined height width

/-! ## frame_removal.py -/

/-- frame_removal.crop_to_frame_interior: shrink the detected rectangle by the
margin on every side, clamp it into the image, and crop — unless the clamped
rectangle has non-positive width or height, in which case the original image
is returned unmodified. -/
def cropToFrameInterior (img : Image) (rect : Int × Int × Int × Int) (margin : Int) : Image :=
  let x1 := rect.1 + margin
  let y1 := rect.2.1 + margin
  let w1 := rect.2.2.1 - 2 * margin
  let h1 := rect.2.2.2 - 2 * margin
  let x2 := max 0 x1
  let y2 := max 0 y1
  let w2 := min w1 ((img.width : Int) - x2)
  let h2 := min h1 ((img.height : Int) - y2)
  if w2 ≤ 0 ∨ h2 ≤ 0 then img
  else
    { height := h2.toNat, width := w2.toNat,
      pix := fun r c => img.pix (r + y2.toNat) (c + x2.toNat) }

/-- frame_removal.apply_margin_crop with the default margin_percent = 0.05:
per axis the margin is min(int(dim * 0.05), dim // 10) = min(⌊dim/20⌋, ⌊dim/10⌋),
and the symmetric crop is applied unless it would be empty. -/
def applyMarginCrop (img : Image) : Image :=
  let marginX := min (img.width / 20) (img.width / 10)
  let marginY := min (img.height / 20) (img.height / 10)
  if img.width - 2 * marginX = 0 ∨ img.height - 2 * marginY = 0 then img
  else
    { height := img.height - 2 * marginY, width := img.width - 2 * marginX,
      pix := fun y x => img.pix (y + marginY) (x + marginX) }

/-! ## utils.py and lead_segmentation.py -/

/-- Total intensity of the image, the numerator of np.mean. -/
def sumPix (img : Image) : Nat :=
  ((List.range img.height).map fun y =>
    ((List.range img.width).map fun x => img.pix y x).sum).sum

/-- utils.ensure_white_signal_on_black_background: invert when the mean
intensity exceeds 127, i.e. when sum > 127 · (number of pixels). -/
def ensureWhiteSignalOnBlackBackground (img : Image) : Image :=
  if 127 * (img.height * img.width) < sumPix img then
    { img with pix := fun y x => 255 - img.pix y x }
  else img

/-- utils.binarize_image: cv2.threshold with THRESH_BINARY maps values
strictly above the threshold to 255 and the rest to 0. -/
def binarizeImage (img : Image) (threshold : Nat) : Image :=
  { img with pix := fun y x => if threshold < img.pix y x then 255 else 0 }

/-- Rows of the white pixels of one column, ascending
(np.where(binary_image[:, col] > 0)). -/
def whiteRowsInColumn (img : Image) (col : Nat) : List Nat :=
  (List.range img.height).filter fun r => 0 < img.pix r col

/-- Split an ascending list into maximal runs whose consecutive gaps are at
most `gap`. With gap = 1 this is the adjacent-pixel grouping of
find_signal_points; with gap = eps it is the 1-D density clustering scan. -/
def groupWithin (gap : Nat) : List Nat → List (List Nat)
  | [] => []
  | [x] => [[x]]
  | x :: y :: rest =>
    match groupWithin gap (y :: rest) with
    | [] => [[x]]
    | g :: gs => if y - x ≤ gap then (x :: g) :: gs else [x] :: g :: gs

/-- int(np.median(sorted group)): the middle element for odd length, the
truncated mean of the two middle elements for even length. -/
def intMedian (g : List Nat) : Nat :=
  if g.length % 2 = 1 then g.getD (g.length / 2) 0
  else (g.getD (g.length / 2 - 1) 0 + g.getD (g.length / 2) 0) / 2

/-- lead_segmentation.find_signal_points: per column, the median row of every
maximal run of adjacent white pixels, pooled over all columns. -/
def findSignalPoints (img : Image) : List Nat :=
  ((List.range img.width).map fun col =>
    (groupWithin 1 (whiteRowsInColumn img col)).map intMedian).flatten

/-- Insertion step of an ascending insertion sort on Nat. -/
def insertNat (a : Nat) : List Nat → List Nat
  | [] => [a]
  | b :: t => if a ≤ b then a :: b :: t else b :: insertNat a t

/-- Ascending sort on Nat (the Python sorted builtin on the lead positions, and the
pre-scan sort of the 1-D clustering). -/
def sortNat : List Nat → List Nat
  | [] => []
  | a :: t => insertNat a (sortNat t)

/-- Modelled from the spec: the density-based clustering that
cluster_lead_positions delegates to the sklearn DBSCAN (not part of this
repository) on 1-D row coordinates — sort the points, scan for runs with
consecutive gaps ≤ eps, and keep runs with at least min_samples members;
shorter runs are noise and are discarded. -/
def dbscanClusters1D (points : List Nat) (eps minSamples : Nat) : List (List Nat) :=
  (groupWithin eps (sortNat points)).filter fun g => minSamples ≤ g.length

/-- lead_segmentation.cluster_lead_positions: reshape the signal points into a
sample array and fit DBSCAN(eps, min_samples = 3), then return the sorted
cluster medians. The sklearn fit validates its input and raises ValueError when
the sample array is empty (a blank image yields no signal points), which is
modelled as the error branch. -/
def clusterLeadPositions (signalPoints : List Nat) (eps : Nat) : Except String (List Nat) :=
  match signalPoints with
  | [] => Except.error "ValueError: found array with 0 samples"
  | p :: ps =>
    Except.ok (sortNat ((dbscanClusters1D (p :: ps) eps 3).map intMedian))

/-- lead_segmentation.calculate_lead_boundaries: 0, then the midpoint of each
adjacent pair of lead positions, then the image height. -/
def calculateLeadBoundaries (leadPositions : List Nat) (imageHeight : Nat) : List Nat :=
  0 :: (((leadPositions.zip leadPositions.tail).map fun p => (p.1 + p.2) / 2) ++ [imageHeight])

/-- lead_segmentation.adjust_to_expected_lead_count: when more lead bands were
found than expected, keep only the first expected_leads + 1 boundaries;
otherwise (including under-detection) return the list unchanged. -/
def adjustToExpectedLeadCount (leadBoundaries : List Nat) (expectedLeads : Nat) : List Nat :=
  if expectedLeads < leadBoundaries.length - 1 then leadBoundaries.take (expectedLeads + 1)
  else leadBoundaries

/-- lead_segmentation.segment_leads: normalize polarity, binarize at 127, find
signal points, cluster them into lead positions, derive boundaries, and
reconcile against the expected lead count. The DBSCAN failure on an empty
sample array propagates out as an error. -/
def segmentLeads (img : Image) (eps expectedLeads : Nat) :
    Except String (List Nat × List Nat × Image) :=
  let binary := binarizeImage (ensureWhiteSignalOnBlackBackground img) 127
  match clusterLeadPositions (findSignalPoints binary) eps with
  | Except.error e => Except.error e
  | Except.ok positions =>
    Except.ok
      (adjustToExpectedLeadCount (calculateLeadBoundaries positions binary.height) expectedLeads,
        positions, binary)

/-! ## signal_extraction.py -/

/-- np.min of a nonempty list (0 on the empty list, never used there). -/
def listMin : List Nat → Nat
  | [] => 0
  | x :: xs => xs.foldl Nat.min x

/-- np.max of a nonempty list (0 on the empty list, never used there). -/
def listMax : List Nat → Nat
  | [] => 0
  | x :: xs => xs.foldl Nat.max x

/-- Baseline row relative to the segment in extract_lead_boundaries: the
passed lead position minus y_start, or half the segment height when no
baseline is provided. -/
def leadBaseline (yStart yEnd : Nat) : Option Int → Int
  | some v => v - (yStart : Int)
  | none => ((yEnd - yStart) / 2 : Nat)

/-- White pixels of one column of the lead region binary_image[y_start:y_end],
as rows relative to the segment, ascending. -/
def columnWhitePixels (img : Image) (yStart yEnd x : Nat) : List Nat :=
  (List.range (yEnd - yStart)).filter fun r => 0 < img.pix (yStart + r) x

/-- Per-column body of extract_lead_boundaries: no white pixel contributes
nothing; several white pixels contribute baseline − topmost to the upper
boundary and baseline − bottommost to the lower one; a single white pixel
contributes its amplitude to the upper boundary when non-negative, to the
lower one when negative. -/
def columnBoundaryPoints (wp : List Nat) (b : Int) : Option Int × Option Int :=
  match wp with
  | [] => (none, none)
  | [r] => if 0 ≤ b - (r : Int) then (some (b - (r : Int)), none) else (none, some (b - (r : Int)))
  | r1 :: r2 :: rs =>
    (some (b - (listMin (r1 :: r2 :: rs) : Int)), some (b - (listMax (r1 :: r2 :: rs) : Int)))

/-- Insertion step of the sort by x-coordinate. -/
def insertByFst (p : Nat × Int) : List (Nat × Int) → List (Nat × Int)
  | [] => [p]
  | q :: t => if p.1 ≤ q.1 then p :: q :: t else q :: insertByFst p t

/-- signal_extraction.sort_boundary_points: order the (x, amplitude) points by
ascending x (the parallel x/y arrays of the source are modelled as one list
of pairs). -/
def sortBoundaryPoints : List (Nat × Int) → List (Nat × Int)
  | [] => []
  | p :: t => insertByFst p (sortBoundaryPoints t)

/-- Upper-boundary points accumulated by the column loop of
extract_lead_boundaries, in column order. -/
def upperPoints (img : Image) (yStart yEnd : Nat) (b : Int) : List (Nat × Int) :=
  (List.range img.width).filterMap fun x =>
    ((columnBoundaryPoints (columnWhitePixels img yStart yEnd x) b).1).map fun a => (x, a)

/-- Lower-boundary points accumulated by the column loop of
extract_lead_boundaries, in column order. -/
def lowerPoints (img : Image) (yStart yEnd : Nat) (b : Int) : List (Nat × Int) :=
  (List.range img.width).filterMap fun x =>
    ((columnBoundaryPoints (columnWhitePixels img yStart yEnd x) b).2).map fun a => (x, a)

/-- signal_extraction.extract_lead_boundaries: the sorted upper and lower
boundary traces of the band [y_start, y_end) and the lead height. -/
def extractLeadBoundaries (img : Image) (yStart yEnd : Nat) (baselineY : Option Int) :
    List (Nat × Int) × List (Nat × Int) × Nat :=
  (sortBoundaryPoints (upperPoints img yStart yEnd (leadBaseline yStart yEnd baselineY)),
    sortBoundaryPoints (lowerPoints img yStart yEnd (leadBaseline yStart yEnd baselineY)),
    yEnd - yStart)

/-! ## Helper lemmas -/

/-- The midpoint list of a sorted, height-bounded position list, with the
image height appended, is a non-decreasing chain. -/
theorem midpointsChain (h : Nat) : ∀ ps : List Nat, ps.Chain' (· ≤ ·) →
    (∀ p ∈ ps, p ≤ h) →
    List.Chain' (· ≤ ·) (((ps.zip ps.tail).map fun p => (p.1 + p.2) / 2) ++ [h])
  | [] => fun _ _ => by simp
  | [p] => fun _ _ => by simp
  | p :: q :: rest => fun hchain hle => by
    have hpq : p ≤ q := (List.chain'_cons.mp hchain).1
    have htail := midpointsChain h (q :: rest) (List.chain'_cons.mp hchain).2
      (fun r hr => hle r (List.mem_cons_of_mem _ hr))
    refine List.chain'_cons'.mpr ⟨?_, htail⟩
    intro z hz
    cases rest with
    | nil =>
      simp at hz
      have hp : p ≤ h := hle p (by simp)
      have hq : q ≤ h := hle q (by simp)
      show (p + q) / 2 ≤ z
      omega
    | cons r rest' =>
      have hqr : q ≤ r := (List.chain'_cons.mp (List.chain'_cons.mp hchain).2).1
      simp at hz
      show (p + q) / 2 ≤ z
      omega

/-- Unrolling the dilation fold: starting from an accumulator that is 0 or
255, the fold over any offset list yields 255 exactly when the accumulator was
255 or some in-range offset sees a 255 mask pixel, and 0 otherwise. -/
theorem dilate_fold (mask : Nat → Nat → Nat) (height width y x : Nat)
    (hbin : ∀ a b : Nat, mask a b = 0 ∨ mask a b = 255) :
    ∀ (l : List (Int × Int)) (acc : Nat), acc = 0 ∨ acc = 255 →
      (l.foldl (fun acc d =>
          if 0 ≤ (y : Int) + d.1 ∧ (y : Int) + d.1 < (height : Int) ∧
              0 ≤ (x : Int) + d.2 ∧ (x : Int) + d.2 < (width : Int)
          then max acc (mask ((y : Int) + d.1).toNat ((x : Int) + d.2).toNat)
          else acc) acc) =
        if acc = 255 ∨ ∃ d ∈ l,
            (0 ≤ (y : Int) + d.1 ∧ (y : Int) + d.1 < (height : Int) ∧
              0 ≤ (x : Int) + d.2 ∧ (x : Int) + d.2 < (width : Int)) ∧
            mask ((y : Int) + d.1).toNat ((x : Int) + d.2).toNat = 255
        then 255 else 0 := by
  intro l
  induction l with
  | nil => intro acc hacc; rcases hacc with rfl | rfl <;> simp
  | cons d t ih =>
    intro acc hacc
    rw [List.foldl_cons]
    by_cases hc : 0 ≤ (y : Int) + d.1 ∧ (y : Int) + d.1 < (height : Int) ∧
        0 ≤ (x : Int) + d.2 ∧ (x : Int) + d.2 < (width : Int)
    · rw [if_pos hc]
      have hm := hbin ((y : Int) + d.1).toNat ((x : Int) + d.2).toNat
      have hacc2 : max acc (mask ((y : Int) + d.1).toNat ((x : Int) + d.2).toNat) = 0 ∨
          max acc (mask ((y : Int) + d.1).toNat ((x : Int) + d.2).toNat) = 255 := by
        rcases hacc with rfl | rfl <;> rcases hm with hm | hm <;> simp [hm]
      rw [ih _ hacc2]
      refine if_congr ?_ rfl rfl
      constructor
      · rintro (hmax | ⟨d', hd', hcc, hw⟩)
        · rcases hacc with rfl | rfl
          · exact Or.inr ⟨d, List.mem_cons_self _ _, hc, by simpa using hmax⟩
          · exact Or.inl rfl
        · exact Or.inr ⟨d', List.mem_cons_of_mem _ hd', hcc, hw⟩
      · rintro (rfl | ⟨d', hd', hcc, hw⟩)
        · left; rcases hm with hm | hm <;> simp [hm]
        · rcases List.mem_cons.mp hd' with rfl | hd2
          · left; rw [hw]; rcases hacc with rfl | rfl <;> simp
          · exact Or.inr ⟨d', hd2, hcc, hw⟩
    · rw [if_neg hc]
      rw [ih _ hacc]
      refine if_congr ?_ rfl rfl
      constructor
      · rintro (h | ⟨d', hd', hcc, hw⟩)
        · exact Or.inl h
        · exact Or.inr ⟨d', List.mem_cons_of_mem _ hd', hcc, hw⟩
      · rintro (h | ⟨d', hd', hcc, hw⟩)
        · exact Or.inl h
        · rcases List.mem_cons.mp hd' with rfl | hd2
          · exact absurd hcc hc
          · exact Or.inr ⟨d', hd2, hcc, hw⟩

/-- Pointwise reading of a binary mask dilated once with the 3×3 kernel. -/
theorem dilate3x3_char (mask : Nat → Nat → Nat) (height width : Nat)
    (hbin : ∀ a b : Nat, mask a b = 0 ∨ mask a b = 255) (y x : Nat) :
    dilate3x3 mask height width y x =
      if ∃ d ∈ offsets3x3,
          (0 ≤ (y : Int) + d.1 ∧ (y : Int) + d.1 < (height : Int) ∧
            0 ≤ (x : Int) + d.2 ∧ (x : Int) + d.2 < (width : Int)) ∧
          mask ((y : Int) + d.1).toNat ((x : Int) + d.2).toNat = 255
      then 255 else 0 := by
  unfold dilate3x3
  rw [dilate_fold mask height width y x hbin offsets3x3 0 (Or.inl rfl)]
  exact if_congr (by simp) rfl rfl

/-- The margin mask holds 255 exactly on the left and bottom bands. -/
theorem createMarginMask_eq_255 (height width a b : Nat) :
    createMarginMask height width a b = 255 ↔
      (b < width / 10 ∨ height - height / 20 ≤ a) := by
  unfold createMarginMask
  split
  · rename_i h; exact iff_of_true rfl h
  · rename_i h; exact iff_of_false (by decide) h

/-- The margin mask is binary. -/
theorem createMarginMask_binary (height width a b : Nat) :
    createMarginMask height width a b = 0 ∨ createMarginMask height width a b = 255 := by
  unfold createMarginMask
  split
  · exact Or.inr rfl
  · exact Or.inl rfl

/-- Projecting the column index out of the filterMap that builds boundary
points recovers a filter of the column range. -/
theorem map_fst_points (g : Nat → Option Int) (l : List Nat) :
    ((l.filterMap fun t => (g t).map fun v => (t, v)).map Prod.fst) =
      l.filter fun t => (g t).isSome := by
  induction l with
  | nil => rfl
  | cons a t ih =>
    cases hg : g a with
    | none => simp [List.filterMap_cons, hg, ih, List.filter_cons]
    | some v => simp [List.filterMap_cons, hg, ih, List.filter_cons]

/-- Boundary points built by the column loop have strictly increasing column
indices. -/
theorem pairwise_fst_points (g : Nat → Option Int) (w : Nat) :
    ((List.range w).filterMap fun t => (g t).map fun v => (t, v)).Pairwise
      fun p q => p.1 < q.1 := by
  have h1 : (((List.range w).filterMap fun t => (g t).map fun v => (t, v)).map
      Prod.fst).Pairwise (· < ·) := by
    rw [map_fst_points]
    exact (List.pairwise_lt_range w).filter _
  exact List.pairwise_map.mp h1

/-- Sorting by column index is the identity on a strictly increasing list. -/
theorem sortBoundaryPoints_eq_self : ∀ l : List (Nat × Int),
    l.Pairwise (fun p q => p.1 < q.1) → sortBoundaryPoints l = l
  | [] => fun _ => rfl
  | p :: t => fun h => by
    have hhead := (List.pairwise_cons.mp h).1
    have ht := (List.pairwise_cons.mp h).2
    rw [show sortBoundaryPoints (p :: t) = insertByFst p (sortBoundaryPoints t) from rfl,
      sortBoundaryPoints_eq_self t ht]
    cases t with
    | nil => rfl
    | cons q t' =>
      show insertByFst p (q :: t') = p :: q :: t'
      simp only [insertByFst]
      rw [if_pos (Nat.le_of_lt (hhead q (List.mem_cons_self q t')))]

/-- Membership in the column-loop point list: the pair (x, a) is present
exactly when x is an in-range column whose per-column computation yields a. -/
theorem mem_points (g : Nat → Option Int) (w x : Nat) (a : Int) :
    ((x, a) ∈ (List.range w).filterMap fun t => (g t).map fun v => (t, v)) ↔
      x < w ∧ g x = some a := by
  rw [List.mem_filterMap]
  constructor
  · rintro ⟨t, ht, hmap⟩
    rcases Option.map_eq_some'.mp hmap with ⟨v, hv, heq⟩
    cases heq
    exact ⟨List.mem_range.mp ht, hv⟩
  · rintro ⟨hx, hg⟩
    exact ⟨x, List.mem_range.mpr hx, by rw [hg]; rfl⟩

/-- Membership in the returned upper boundary trace. -/
theorem mem_extract_upper (img : Image) (yS yE : Nat) (b? : Option Int) (x : Nat) (a : Int) :
    ((x, a) ∈ (extractLeadBoundaries img yS yE b?).1) ↔
      x < img.width ∧
        (columnBoundaryPoints (columnWhitePixels img yS yE x) (leadBaseline yS yE b?)).1 =
          some a := by
  show (x, a) ∈ sortBoundaryPoints (upperPoints img yS yE (leadBaseline yS yE b?)) ↔ _
  unfold upperPoints
  rw [sortBoundaryPoints_eq_self _ (pairwise_fst_points _ _)]
  exact mem_points _ _ _ _

/-- Membership in the returned lower boundary trace. -/
theorem mem_extract_lower (img : Image) (yS yE : Nat) (b? : Option Int) (x : Nat) (a : Int) :
    ((x, a) ∈ (extractLeadBoundaries img yS yE b?).2.1) ↔
      x < img.width ∧
        (columnBoundaryPoints (columnWhitePixels img yS yE x) (leadBaseline yS yE b?)).2 =
          some a := by
  show (x, a) ∈ sortBoundaryPoints (lowerPoints img yS yE (leadBaseline yS yE b?)) ↔ _
  unfold lowerPoints
  rw [sortBoundaryPoints_eq_self _ (pairwise_fst_points _ _)]
  exact mem_points _ _ _ _

/-- The white rows of a column are listed in strictly increasing order. -/
theorem columnWhitePixels_pairwise (img : Image) (yS yE x : Nat) :
    (columnWhitePixels img yS yE x).Pairwise (· < ·) := by
  unfold columnWhitePixels
  exact (List.pairwise_lt_range _).filter _

/-- A left fold of Nat.min never exceeds its initial accumulator. -/
theorem foldl_min_le_init : ∀ (xs : List Nat) (a : Nat), xs.foldl Nat.min a ≤ a
  | [], a => Nat.le_refl a
  | x :: t, a => Nat.le_trans (foldl_min_le_init t (Nat.min a x)) (Nat.min_le_left a x)

/-- A left fold of Nat.max is at least its initial accumulator. -/
theorem le_foldl_max_init : ∀ (xs : List Nat) (a : Nat), a ≤ xs.foldl Nat.max a
  | [], a => Nat.le_refl a
  | x :: t, a => Nat.le_trans (Nat.le_max_left a x) (le_foldl_max_init t (Nat.max a x))

/-- A left fold of Nat.max dominates every list member. -/
theorem mem_le_foldl_max : ∀ (xs : List Nat) (a y : Nat), y ∈ xs → y ≤ xs.foldl Nat.max a
  | [], _, y, hy => absurd hy (List.not_mem_nil y)
  | x :: t, a, y, hy => by
    rcases List.mem_cons.mp hy with rfl | h
    · exact Nat.le_trans (Nat.le_max_right a y) (le_foldl_max_init t _)
    · exact mem_le_foldl_max t _ y h

/-- On a strictly increasing list with at least two elements, np.min is
strictly below np.max. -/
theorem listMin_lt_listMax (r1 r2 : Nat) (rs : List Nat)
    (h : (r1 :: r2 :: rs).Pairwise (· < ·)) :
    listMin (r1 :: r2 :: rs) < listMax (r1 :: r2 :: rs) := by
  have h12 : r1 < r2 := (List.pairwise_cons.mp h).1 r2 (List.mem_cons_self _ _)
  have hmin : listMin (r1 :: r2 :: rs) ≤ r1 := foldl_min_le_init (r2 :: rs) r1
  have hmax : r2 ≤ listMax (r1 :: r2 :: rs) := mem_le_foldl_max (r2 :: rs) r1 r2
    (List.mem_cons_self _ _)
  omega

/-- Both neighbor-offset sets are symmetric: the reverse of an offset is again
an offset. -/
theorem neighborOffsets_symm (c : Nat) (d : Int × Int) (hd : d ∈ neighborOffsets c) :
    (-d.1, -d.2) ∈ neighborOffsets c := by
  by_cases h : c = 8
  · rw [neighborOffsets, if_pos h] at hd ⊢
    fin_cases hd <;> decide
  · rw [neighborOffsets, if_neg h] at hd ⊢
    fin_cases hd <;> decide

/-- Pointwise reading of the cleaned image. -/
theorem removeIsolatedPixels_pix (img : Image) (c m y x : Nat) :
    (removeIsolatedPixels img c m).pix y x =
      if y < img.height ∧ x < img.width ∧ img.pix y x = 255 ∧
          countWhiteNeighbors img c y x < m
      then 0 else img.pix y x := rfl

/-- Unfolding the neighbor test into its proposition. -/
theorem isWhiteNeighbor_iff (img : Image) (y x : Nat) (d : Int × Int) :
    isWhiteNeighbor img y x d = true ↔
      (0 ≤ (y : Int) + d.1 ∧ (y : Int) + d.1 < (img.height : Int) ∧
        0 ≤ (x : Int) + d.2 ∧ (x : Int) + d.2 < (img.width : Int) ∧
        img.pix ((y : Int) + d.1).toNat ((x : Int) + d.2).toNat = 255) := by
  unfold isWhiteNeighbor
  exact decide_eq_true_iff

/-- A pixel white after cleaning was white before. -/
theorem cleaned_white (img : Image) (c m y x : Nat)
    (h : (removeIsolatedPixels img c m).pix y x = 255) : img.pix y x = 255 := by
  rw [removeIsolatedPixels_pix] at h
  split at h
  · exact absurd h (by decide)
  · exact h

/-- An in-range pixel white after cleaning with min_connections = 1 had at
least one white neighbor before cleaning. -/
theorem cleaned_white_count (img : Image) (c y x : Nat) (hy : y < img.height)
    (hx : x < img.width) (h : (removeIsolatedPixels img c 1).pix y x = 255) :
    1 ≤ countWhiteNeighbors img c y x := by
  rw [removeIsolatedPixels_pix] at h
  split at h
  · exact absurd h (by decide)
  · rename_i hcond
    by_contra hlt
    exact hcond ⟨hy, hx, h, by omega⟩

/-- A white pixel with a white neighbor keeps a white neighbor after cleaning
with min_connections = 1: the neighbor itself survives, because this pixel is
one of its white neighbors through the reverse offset. -/
theorem count_pos_after_clean (img : Image) (c y x : Nat) (hy : y < img.height)
    (hx : x < img.width) (hwhite : img.pix y x = 255)
    (hcnt : 1 ≤ countWhiteNeighbors img c y x) :
    1 ≤ countWhiteNeighbors (removeIsolatedPixels img c 1) c y x := by
  unfold countWhiteNeighbors at hcnt
  obtain ⟨d, hd, hP⟩ := List.countP_pos_iff.mp hcnt
  rw [isWhiteNeighbor_iff] at hP
  obtain ⟨h1, h2, h3, h4, h5⟩ := hP
  have hrev : (-d.1, -d.2) ∈ neighborOffsets c := neighborOffsets_symm c d hd
  have hncount :
      1 ≤ countWhiteNeighbors img c ((y : Int) + d.1).toNat ((x : Int) + d.2).toNat := by
    unfold countWhiteNeighbors
    refine List.countP_pos_iff.mpr ⟨(-d.1, -d.2), hrev, ?_⟩
    rw [isWhiteNeighbor_iff]
    dsimp only
    have hyy : (((((y : Int) + d.1).toNat : Int)) + -d.1).toNat = y := by omega
    have hxx : (((((x : Int) + d.2).toNat : Int)) + -d.2).toNat = x := by omega
    refine ⟨by omega, by omega, by omega, by omega, ?_⟩
    rw [hyy, hxx]
    exact hwhite
  have hclean :
      (removeIsolatedPixels img c 1).pix ((y : Int) + d.1).toNat ((x : Int) + d.2).toNat =
        255 := by
    rw [removeIsolatedPixels_pix]
    rw [if_neg (fun hc => by omega)]
    exact h5
  unfold countWhiteNeighbors
  refine List.countP_pos_iff.mpr ⟨d, hd, ?_⟩
  rw [isWhiteNeighbor_iff]
  exact ⟨h1, h2, h3, h4, hclean⟩

/-! ## Claims -/

/-- C1: the spec requires that, for every decodable input, every condition
other than a decode failure resolves to a fallback, so lead segmentation must
succeed even when the cleaned image has no foreground pixels. The code
violates this: on a blank image find_signal_points returns the empty list and
cluster_lead_positions hands DBSCAN an empty sample array, whose fit raises
ValueError, aborting segment_leads (and hence the pipeline). This theorem
evaluates the embedded segment_leads at a blank 3×3 image. -/
theorem segment_leads_errors_on_blank_image :
    segmentLeads { height := 3, width := 3, pix := fun _ _ => 0 } 10 12 =
      Except.error "ValueError: found array with 0 samples" := rfl

/-- C3: boundary lists longer than expected_leads + 1 are truncated to their
first expected_leads + 1 entries; shorter or equal ones are returned
unchanged. -/
theorem adjust_to_expected_lead_count_spec (bs : List Nat) (e : Nat) :
    (e + 1 < bs.length → adjustToExpectedLeadCount bs e = bs.take (e + 1)) ∧
    (bs.length ≤ e + 1 → adjustToExpectedLeadCount bs e = bs) := by
  constructor
  · intro h
    unfold adjustToExpectedLeadCount
    rw [if_pos (by omega)]
  · intro h
    unfold adjustToExpectedLeadCount
    rw [if_neg (by omega)]

/-- Witness for C3: 16 boundaries (15 detected lead bands) against an expected
count of 12 are truncated to exactly the first 13 entries. -/
theorem adjust_to_expected_lead_count_spec_witness :
    12 + 1 <
      ([0, 10, 20, 30, 40, 50, 60, 70, 80, 90, 100, 110, 120, 130, 140, 160] : List Nat).length ∧
    adjustToExpectedLeadCount
        [0, 10, 20, 30, 40, 50, 60, 70, 80, 90, 100, 110, 120, 130, 140, 160] 12 =
      ([0, 10, 20, 30, 40, 50, 60, 70, 80, 90, 100, 110, 120, 130, 140, 160] : List Nat).take 13 ∧
    (adjustToExpectedLeadCount
        [0, 10, 20, 30, 40, 50, 60, 70, 80, 90, 100, 110, 120, 130, 140, 160] 12).length = 13 :=
  ⟨by decide,
    (adjust_to_expected_lead_count_spec
      [0, 10, 20, 30, 40, 50, 60, 70, 80, 90, 100, 110, 120, 130, 140, 160] 12).1 (by decide),
    by decide⟩

/-- C2 counterexample: with 15 sorted lead positions bounded by the image
height 1000 and the default expected count 12, the reconciled boundary list is
truncated and its last element is a midpoint boundary (125), not the image
height — refuting the claim that the last element always equals the image
height. -/
theorem adjusted_lead_boundaries_cex :
    (adjustToExpectedLeadCount
        (calculateLeadBoundaries
          [10, 20, 30, 40, 50, 60, 70, 80, 90, 100, 110, 120, 130, 140, 150] 1000)
        12).getLast? ≠ some 1000 := by decide

/-- C2 (amended): for sorted lead positions bounded by the image height, the
reconciled boundary list has length min(pre-adjustment length, expected + 1),
is non-decreasing, starts at 0, and ends at the image height whenever no
truncation occurs (pre-adjustment length ≤ expected + 1). -/
theorem adjusted_lead_boundaries_invariants (ps : List Nat) (h expected : Nat)
    (hchain : ps.Chain' (· ≤ ·)) (hle : ∀ p ∈ ps, p ≤ h) :
    (adjustToExpectedLeadCount (calculateLeadBoundaries ps h) expected).length =
      min (calculateLeadBoundaries ps h).length (expected + 1) ∧
    (adjustToExpectedLeadCount (calculateLeadBoundaries ps h) expected).Pairwise (· ≤ ·) ∧
    (adjustToExpectedLeadCount (calculateLeadBoundaries ps h) expected).head? = some 0 ∧
    ((calculateLeadBoundaries ps h).length ≤ expected + 1 →
      (adjustToExpectedLeadCount (calculateLeadBoundaries ps h) expected).getLast? = some h) := by
  have hLchain : (calculateLeadBoundaries ps h).Chain' (· ≤ ·) := by
    unfold calculateLeadBoundaries
    refine List.chain'_cons'.mpr ⟨fun z _ => Nat.zero_le z, midpointsChain h ps hchain hle⟩
  have hLpair : (calculateLeadBoundaries ps h).Pairwise (· ≤ ·) :=
    List.chain'_iff_pairwise.mp hLchain
  unfold adjustToExpectedLeadCount
  split_ifs with hc
  · refine ⟨?_, hLpair.sublist (List.take_sublist _ _), ?_, ?_⟩
    · rw [List.length_take]; omega
    · show ((0 :: _).take (expected + 1)).head? = some 0
      rw [List.take_succ_cons]; rfl
    · intro hno; omega
  · refine ⟨?_, hLpair, rfl, ?_⟩
    · rw [Nat.min_eq_left (by omega)]
    · intro _
      show (0 :: (_ ++ [h])).getLast? = some h
      rw [← List.cons_append]
      exact List.getLast?_concat _

/-- Witness for C2: two sorted positions below the image height, no
truncation; the reconciled boundary list is [0, 20, 100] with head 0 and last
element the image height. -/
theorem adjusted_lead_boundaries_invariants_witness :
    ([10, 30] : List Nat).Chain' (· ≤ ·) ∧
    (adjustToExpectedLeadCount (calculateLeadBoundaries [10, 30] 100) 12).head? = some 0 ∧
    (adjustToExpectedLeadCount (calculateLeadBoundaries [10, 30] 100) 12).getLast? = some 100 :=
  ⟨List.chain'_pair.mpr (by omega),
    (adjusted_lead_boundaries_invariants [10, 30] 100 12 (List.chain'_pair.mpr (by omega))
      (by decide)).2.2.1,
    (adjusted_lead_boundaries_invariants [10, 30] 100 12 (List.chain'_pair.mpr (by omega))
      (by decide)).2.2.2 (by decide)⟩

/-- C6: for positive input dimensions the fallback margin crop always takes
its crop branch and returns an image of dimensions
(w − 2·min(⌊0.05w⌋, ⌊w/10⌋)) × (h − 2·min(⌊0.05h⌋, ⌊h/10⌋)), both strictly
positive. -/
theorem apply_margin_crop_dims (img : Image) (hw : 0 < img.width) (hh : 0 < img.height) :
    (applyMarginCrop img).width = img.width - 2 * min (img.width / 20) (img.width / 10) ∧
    (applyMarginCrop img).height = img.height - 2 * min (img.height / 20) (img.height / 10) ∧
    0 < (applyMarginCrop img).width ∧ 0 < (applyMarginCrop img).height := by
  have hx : min (img.width / 20) (img.width / 10) ≤ img.width / 20 := Nat.min_le_left _ _
  have hy : min (img.height / 20) (img.height / 10) ≤ img.height / 20 := Nat.min_le_left _ _
  have hwpos : 0 < img.width - 2 * min (img.width / 20) (img.width / 10) := by omega
  have hhpos : 0 < img.height - 2 * min (img.height / 20) (img.height / 10) := by omega
  simp only [applyMarginCrop]
  rw [if_neg (by omega)]
  exact ⟨rfl, rfl, hwpos, hhpos⟩

/-- Witness for C6: a 30×30 image is cropped to 28×28, strictly positive. -/
theorem apply_margin_crop_dims_witness :
    0 < (Image.mk 30 30 fun _ _ => 0).width ∧
    0 < (applyMarginCrop (Image.mk 30 30 fun _ _ => 0)).width ∧
    0 < (applyMarginCrop (Image.mk 30 30 fun _ _ => 0)).height :=
  ⟨by decide,
    (apply_margin_crop_dims (Image.mk 30 30 fun _ _ => 0) (by decide) (by decide)).2.2.1,
    (apply_margin_crop_dims (Image.mk 30 30 fun _ _ => 0) (by decide) (by decide)).2.2.2⟩

/-- C7: cropping to the frame interior either rejects the crop — exactly when
the margined, clamped rectangle has non-positive width or height — returning
the original image unmodified, or returns a crop with strictly positive
dimensions whose source rectangle lies entirely within the image extents. -/
theorem crop_to_frame_interior_safe (img : Image) (rect : Int × Int × Int × Int) (margin : Int) :
    ((min (rect.2.2.1 - 2 * margin) ((img.width : Int) - max 0 (rect.1 + margin)) ≤ 0 ∨
        min (rect.2.2.2 - 2 * margin) ((img.height : Int) - max 0 (rect.2.1 + margin)) ≤ 0) ∧
      cropToFrameInterior img rect margin = img) ∨
    (0 < (cropToFrameInterior img rect margin).width ∧
      0 < (cropToFrameInterior img rect margin).height ∧
      ∃ x0 y0 : Nat,
        x0 + (cropToFrameInterior img rect margin).width ≤ img.width ∧
        y0 + (cropToFrameInterior img rect margin).height ≤ img.height ∧
        (cropToFrameInterior img rect margin).pix = fun r c => img.pix (r + y0) (c + x0)) := by
  by_cases hg :
      min (rect.2.2.1 - 2 * margin) ((img.width : Int) - max 0 (rect.1 + margin)) ≤ 0 ∨
        min (rect.2.2.2 - 2 * margin) ((img.height : Int) - max 0 (rect.2.1 + margin)) ≤ 0
  · left
    refine ⟨hg, ?_⟩
    simp only [cropToFrameInterior]
    rw [if_pos hg]
  · right
    have hw2 : 0 < min (rect.2.2.1 - 2 * margin) ((img.width : Int) - max 0 (rect.1 + margin)) := by
      omega
    have hh2 : 0 < min (rect.2.2.2 - 2 * margin) ((img.height : Int) - max 0 (rect.2.1 + margin)) := by
      omega
    have hwle : min (rect.2.2.1 - 2 * margin) ((img.width : Int) - max 0 (rect.1 + margin)) ≤
        (img.width : Int) - max 0 (rect.1 + margin) := min_le_right _ _
    have hhle : min (rect.2.2.2 - 2 * margin) ((img.height : Int) - max 0 (rect.2.1 + margin)) ≤
        (img.height : Int) - max 0 (rect.2.1 + margin) := min_le_right _ _
    have hx0 : (0 : Int) ≤ max 0 (rect.1 + margin) := le_max_left _ _
    have hy0 : (0 : Int) ≤ max 0 (rect.2.1 + margin) := le_max_left _ _
    simp only [cropToFrameInterior]
    rw [if_neg hg]
    dsimp only
    refine ⟨by omega, by omega,
      (max 0 (rect.1 + margin)).toNat, (max 0 (rect.2.1 + margin)).toNat, by omega, by omega, rfl⟩

/-- C8: when the connected-component text detector fails with any error,
create_text_mask does not propagate it: it returns exactly the margin-only
mask dilated by one 3×3 iteration, and that result reads 255 at a pixel
precisely when some in-range pixel of its 3×3 window lies in the left-10% or
bottom-5% band. -/
theorem create_text_mask_on_cc_failure (height width : Nat) (e : String) :
    createTextMask height width (Except.error e) =
      dilate3x3 (createMarginMask height width) height width ∧
    ∀ y x : Nat,
      createTextMask height width (Except.error e) y x =
        if ∃ d ∈ offsets3x3,
            (0 ≤ (y : Int) + d.1 ∧ (y : Int) + d.1 < (height : Int) ∧
              0 ≤ (x : Int) + d.2 ∧ (x : Int) + d.2 < (width : Int)) ∧
            (((x : Int) + d.2).toNat < width / 10 ∨
              height - height / 20 ≤ ((y : Int) + d.1).toNat)
        then 255 else 0 := by
  refine ⟨rfl, fun y x => ?_⟩
  have h := dilate3x3_char (createMarginMask height width) height width
    (createMarginMask_binary height width) y x
  show dilate3x3 (createMarginMask height width) height width y x = _
  rw [h]
  refine if_congr (exists_congr fun d => ?_) rfl rfl
  exact and_congr_right fun _ => and_congr_right fun _ =>
    createMarginMask_eq_255 height width _ _

/-- C9: within one lead, the column indices of the returned upper boundary
trace are strictly increasing, and likewise for the lower trace. -/
theorem boundary_x_strictly_increasing (img : Image) (yS yE : Nat) (b? : Option Int) :
    (((extractLeadBoundaries img yS yE b?).1).map Prod.fst).Pairwise (· < ·) ∧
    (((extractLeadBoundaries img yS yE b?).2.1).map Prod.fst).Pairwise (· < ·) := by
  have h1 : (upperPoints img yS yE (leadBaseline yS yE b?)).Pairwise
      fun p q => p.1 < q.1 := by
    unfold upperPoints; exact pairwise_fst_points _ _
  have h2 : (lowerPoints img yS yE (leadBaseline yS yE b?)).Pairwise
      fun p q => p.1 < q.1 := by
    unfold lowerPoints; exact pairwise_fst_points _ _
  constructor
  · show ((sortBoundaryPoints (upperPoints img yS yE (leadBaseline yS yE b?))).map
      Prod.fst).Pairwise (· < ·)
    rw [sortBoundaryPoints_eq_self _ h1]
    exact List.pairwise_map.mpr h1
  · show ((sortBoundaryPoints (lowerPoints img yS yE (leadBaseline yS yE b?))).map
      Prod.fst).Pairwise (· < ·)
    rw [sortBoundaryPoints_eq_self _ h2]
    exact List.pairwise_map.mpr h2

/-- C5: a column with no foreground pixel contributes no boundary point; a
column with exactly one foreground pixel at relative row r is recorded in
exactly one trace — the upper one when baseline − r is non-negative, the
lower one when it is negative — with amplitude exactly baseline − r. -/
theorem single_pixel_column_classified (img : Image) (yS yE : Nat) (b? : Option Int)
    (x : Nat) (hx : x < img.width) :
    (columnWhitePixels img yS yE x = [] →
      (∀ a : Int, (x, a) ∉ (extractLeadBoundaries img yS yE b?).1) ∧
      (∀ a : Int, (x, a) ∉ (extractLeadBoundaries img yS yE b?).2.1)) ∧
    (∀ r : Nat, columnWhitePixels img yS yE x = [r] →
      (0 ≤ leadBaseline yS yE b? - (r : Int) →
        (x, leadBaseline yS yE b? - (r : Int)) ∈ (extractLeadBoundaries img yS yE b?).1 ∧
        ∀ a : Int, (x, a) ∉ (extractLeadBoundaries img yS yE b?).2.1) ∧
      (leadBaseline yS yE b? - (r : Int) < 0 →
        (x, leadBaseline yS yE b? - (r : Int)) ∈ (extractLeadBoundaries img yS yE b?).2.1 ∧
        ∀ a : Int, (x, a) ∉ (extractLeadBoundaries img yS yE b?).1)) := by
  constructor
  · intro hwp
    constructor <;> intro a hmem
    · rcases (mem_extract_upper img yS yE b? x a).mp hmem with ⟨_, hcb⟩
      rw [hwp] at hcb
      simp [columnBoundaryPoints] at hcb
    · rcases (mem_extract_lower img yS yE b? x a).mp hmem with ⟨_, hcb⟩
      rw [hwp] at hcb
      simp [columnBoundaryPoints] at hcb
  · intro r hwp
    constructor
    · intro hpos
      constructor
      · refine (mem_extract_upper img yS yE b? x _).mpr ⟨hx, ?_⟩
        rw [hwp]
        simp only [columnBoundaryPoints]
        rw [if_pos hpos]
      · intro a hmem
        rcases (mem_extract_lower img yS yE b? x a).mp hmem with ⟨_, hcb⟩
        rw [hwp] at hcb
        simp only [columnBoundaryPoints] at hcb
        rw [if_pos hpos] at hcb
        exact Option.noConfusion hcb
    · intro hneg
      constructor
      · refine (mem_extract_lower img yS yE b? x _).mpr ⟨hx, ?_⟩
        rw [hwp]
        simp only [columnBoundaryPoints]
        rw [if_neg (by omega)]
      · intro a hmem
        rcases (mem_extract_upper img yS yE b? x a).mp hmem with ⟨_, hcb⟩
        rw [hwp] at hcb
        simp only [columnBoundaryPoints] at hcb
        rw [if_neg (by omega)] at hcb
        exact Option.noConfusion hcb

/-- Witness for C5: a 2×1 band image whose only column holds a single
foreground pixel at relative row 0; with the default mid-band baseline 1 the
amplitude 1 is non-negative and the point lands in the upper trace. -/
theorem single_pixel_column_classified_witness :
    0 < (Image.mk 2 1 fun r _ => if r = 0 then 255 else 0).width ∧
    (0, (1 : Int)) ∈
      (extractLeadBoundaries (Image.mk 2 1 fun r _ => if r = 0 then 255 else 0) 0 2 none).1 :=
  ⟨by decide, by
    have h := ((single_pixel_column_classified
      (Image.mk 2 1 fun r _ => if r = 0 then 255 else 0) 0 2 none 0 (by decide)).2
        0 (by decide)).1 (by decide)
    exact h.1⟩

/-- C10: when one column appears in both traces (a column with more than one
foreground pixel), its upper amplitude is strictly greater than its lower
amplitude. -/
theorem shared_column_upper_above_lower (img : Image) (yS yE : Nat) (b? : Option Int)
    (x : Nat) (au al : Int)
    (hu : (x, au) ∈ (extractLeadBoundaries img yS yE b?).1)
    (hl : (x, al) ∈ (extractLeadBoundaries img yS yE b?).2.1) :
    al < au := by
  rcases (mem_extract_upper img yS yE b? x au).mp hu with ⟨_, hcu⟩
  rcases (mem_extract_lower img yS yE b? x al).mp hl with ⟨_, hcl⟩
  have hpw := columnWhitePixels_pairwise img yS yE x
  cases hwp : columnWhitePixels img yS yE x with
  | nil =>
    rw [hwp] at hcu
    simp [columnBoundaryPoints] at hcu
  | cons r1 rest =>
    cases rest with
    | nil =>
      rw [hwp] at hcu hcl
      simp only [columnBoundaryPoints] at hcu hcl
      by_cases hc : 0 ≤ leadBaseline yS yE b? - (r1 : Int)
      · rw [if_pos hc] at hcl
        exact Option.noConfusion hcl
      · rw [if_neg hc] at hcu
        exact Option.noConfusion hcu
    | cons r2 rs =>
      rw [hwp] at hcu hcl hpw
      simp only [columnBoundaryPoints, Option.some.injEq] at hcu hcl
      have hminmax := listMin_lt_listMax r1 r2 rs hpw
      omega

/-- Witness for C10: a 3×1 band with foreground pixels at relative rows 0 and
2 and baseline 2; the column is recorded with upper amplitude 2 and lower
amplitude 0, and 0 < 2. -/
theorem shared_column_upper_above_lower_witness :
    (0, (2 : Int)) ∈
      (extractLeadBoundaries
        (Image.mk 3 1 fun r _ => if r = 0 ∨ r = 2 then 255 else 0) 0 3 (some 2)).1 ∧
    (0, (0 : Int)) ∈
      (extractLeadBoundaries
        (Image.mk 3 1 fun r _ => if r = 0 ∨ r = 2 then 255 else 0) 0 3 (some 2)).2.1 ∧
    (0 : Int) < 2 :=
  ⟨by decide, by decide,
    shared_column_upper_above_lower
      (Image.mk 3 1 fun r _ => if r = 0 ∨ r = 2 then 255 else 0) 0 3 (some 2) 0 2 0
      (by decide) (by decide)⟩

/-- C4: with min_connections = 1 the isolated-pixel cleaner is idempotent for
any connectivity setting (in particular 8 and 4): every pixel surviving the
first pass still has a surviving white neighbor, so a second pass removes
nothing. -/
theorem remove_isolated_pixels_idempotent (img : Image) (connectivity : Nat) :
    removeIsolatedPixels (removeIsolatedPixels img connectivity 1) connectivity 1 =
      removeIsolatedPixels img connectivity 1 := by
  have hpix : ∀ y x : Nat,
      (removeIsolatedPixels (removeIsolatedPixels img connectivity 1) connectivity 1).pix y x =
        (removeIsolatedPixels img connectivity 1).pix y x := by
    intro y x
    rw [removeIsolatedPixels_pix (removeIsolatedPixels img connectivity 1)]
    by_cases hcond : y < (removeIsolatedPixels img connectivity 1).height ∧
        x < (removeIsolatedPixels img connectivity 1).width ∧
        (removeIsolatedPixels img connectivity 1).pix y x = 255 ∧
        countWhiteNeighbors (removeIsolatedPixels img connectivity 1) connectivity y x < 1
    · exfalso
      obtain ⟨hy, hx, hwhite, hcnt⟩ := hcond
      have hw0 : img.pix y x = 255 := cleaned_white img connectivity 1 y x hwhite
      have hc0 : 1 ≤ countWhiteNeighbors img connectivity y x :=
        cleaned_white_count img connectivity y x hy hx hwhite
      have hc1 := count_pos_after_clean img connectivity y x hy hx hw0 hc0
      omega
    · rw [if_neg hcond]
  show Image.mk img.height img.width
      (removeIsolatedPixels (removeIsolatedPixels img connectivity 1) connectivity 1).pix =
    Image.mk img.height img.width (removeIsolatedPixels img connectivity 1).pix
  exact congrArg (Image.mk img.height img.width)
    (funext fun y => funext fun x => hpix y x)

end Ecg
